import Mathlib

/-!
Shallow embedding of `privacy_policy_analyzer.py`.

Python strings are modelled as `List Char` (ASCII fragment of `str`);
the whitespace class of Python's `\s` and `str.strip` is modelled by its
ASCII members.  Dictionaries (`Dict[str, List[str]]`) are modelled as
association lists in insertion order, which is Python's iteration order.
-/

namespace PPA

/-- ASCII whitespace, the characters matched by Python's `\s` on ASCII text. -/
def isPySpace (c : Char) : Bool :=
  c = ' ' || c = '\t' || c = '\n' || c = '\r' || c = '\x0b' || c = '\x0c'

/-- The sentence-ending punctuation class `[.!?]` of the splitting regex. -/
def isPunct (c : Char) : Bool :=
  c = '.' || c = '!' || c = '?'

/-- The character class `[A-Z]` of the splitting regex. -/
def isUpperAZ (c : Char) : Bool :=
  'A' ≤ c && c ≤ 'Z'

/-- ASCII lowering, as `str.lower` acts on ASCII letters. -/
def lowerChar (c : Char) : Char :=
  if 'A' ≤ c && c ≤ 'Z' then Char.ofNat (c.toNat + 32) else c

/-- `str.strip`: drop trailing whitespace, then leading whitespace. -/
def stripChars (l : List Char) : List Char :=
  ((l.reverse.dropWhile isPySpace).reverse).dropWhile isPySpace

/-- `re.sub(r"\s+", " ", ·)`: collapse every whitespace run to one space. -/
def collapse : List Char → List Char
  | [] => []
  | [c] => if isPySpace c then [' '] else [c]
  | a :: b :: rest =>
    if isPySpace a && isPySpace b then collapse (b :: rest)
    else (if isPySpace a then ' ' else a) :: collapse (b :: rest)

/-- Whether the text after a `[.!?]` character matches `\s+(?=[A-Z])`:
one or more whitespace characters and then an uppercase letter. -/
def isBoundary (l : List Char) : Bool :=
  match l with
  | [] => false
  | c :: _ =>
    isPySpace c &&
      (match l.dropWhile isPySpace with
       | [] => false
       | u :: _ => isUpperAZ u)

/-- The split `re.split(r"(?<=[.!?])\s+(?=[A-Z])", ·)`, scanning left to
right and cutting at every qualifying boundary.  `acc` holds the current
fragment reversed; `fuel` only bounds the recursion and never runs out
when `fuel ≥ l.length` (see `splitGo_fuel`). -/
def splitGo (fuel : Nat) (acc : List Char) (l : List Char) : List (List Char) :=
  match fuel, l with
  | _, [] => [acc.reverse]
  | 0, l => [acc.reverse ++ l]
  | fuel + 1, c :: rest =>
    if isPunct c && isBoundary rest then
      (c :: acc).reverse :: splitGo fuel [] (rest.dropWhile isPySpace)
    else
      splitGo fuel (c :: acc) rest

/-- `split_sentences` from the source: normalize whitespace, split at the
regex boundaries, then strip each fragment and drop the empty ones. -/
def split_sentences (text : List Char) : List (List Char) :=
  let cleaned := collapse (stripChars text)
  ((splitGo cleaned.length [] cleaned).map stripChars).filter (fun s => !s.isEmpty)

/-- Python's `needle in hay` prefix worker: `needle` is a prefix of `hay`. -/
def isPrefixB : List Char → List Char → Bool
  | [], _ => true
  | _ :: _, [] => false
  | a :: as, b :: bs => a = b && isPrefixB as bs

/-- Python's substring containment `needle in hay`. -/
def isSub (needle : List Char) : List Char → Bool
  | [] => needle.isEmpty
  | b :: bs => isPrefixB needle (b :: bs) || isSub needle bs

/-- The list comprehension of `analyze_policy`: the names of the categories,
in table order, one of whose keywords occurs in the lowercased sentence. -/
def matchedCategories (categories : List (String × List String)) (s : List Char) :
    List String :=
  (categories.filter
    (fun ck => ck.2.any (fun kw => isSub kw.toList (s.map lowerChar)))).map Prod.fst

/-- `analyze_policy` from the source: pair each sentence with its matched
categories and keep only the sentences that matched something. -/
def analyze_policy (text : List Char) (categories : List (String × List String)) :
    List (List Char × List String) :=
  ((split_sentences text).map
    (fun s => (s, matchedCategories categories s))).filter (fun p => !p.2.isEmpty)

/-- The seen-set deduplication loop of `get_recommendations`:
keep an element when it has not been seen, remembering it afterwards. -/
def dedupGo : List String → List String → List String
  | _, [] => []
  | seen, r :: rest =>
    if r ∈ seen then dedupGo seen rest else r :: dedupGo (r :: seen) rest

/-- `dict.get category, []`: the value of the first binding of the key,
or `[]` when the key is absent. -/
def lookupRecs (table : List (String × List String)) (c : String) : List String :=
  match table.find? (fun p => p.1 == c) with
  | none => []
  | some p => p.2

/-- The `category_recommendations` table hard-coded in `get_recommendations`. -/
def category_recommendations : List (String × List String) :=
  [("Data Sharing",
    ["Review the app\x27s settings for data sharing or personalization. Opt out of sharing personal data with third‑party partners whenever possible.",
     "Disable permissions for unnecessary sensors or data (e.g., contacts, photos) if they are not needed for the app\x27s core functionality."]),
   ("Data Selling",
    ["Check whether the app offers an option to opt out of the sale of personal information. If so, enable it.",
     "Consider contacting the app developer or using a different service if the policy allows selling your data."]),
   ("Advertising",
    ["In your device settings, limit ad tracking or disable personalized ads (e.g., \x27Limit Ad Tracking\x27 on iOS or \x27Opt out of Ads Personalization\x27 on Android).",
     "Within the app, look for advertising preferences and opt out of targeted advertising."]),
   ("Analytics & Tracking",
    ["Disable analytics or usage tracking in the app\x27s settings if available.",
     "Clear cookies and app data periodically to minimize tracking."]),
   ("Personal Information",
    ["Provide only the minimum personal information required for the app to function.",
     "Regularly review and update your privacy settings to restrict access to sensitive data."]),
   ("Location",
    ["Set location permissions to \x27While Using the App\x27 or \x27Never\x27 unless the app truly needs continuous location access.",
     "Disable precise location access if approximate location suffices for the app\x27s functionality."]),
   ("Retention",
    ["If the policy indicates long data retention, consider periodically deleting your account or data within the app.",
     "Request account deletion or data export when you stop using the service."]),
   ("Security",
    ["Enable any available security features such as two‑factor authentication (2FA) or passcodes within the app.",
     "Keep your device and apps updated to ensure you have the latest security patches."])]

/-- `get_recommendations` from the source: concatenate the recommendation
lists of the matched categories in order, then deduplicate keeping the
first occurrence of each string. -/
def get_recommendations (matched_categories : List String) : List String :=
  dedupGo [] ((matched_categories.map (lookupRecs category_recommendations)).flatten)

/-- The `categories` keyword table defined in `main`. -/
def mainCategories : List (String × List String) :=
  [("Data Sharing",
    ["share", "third party", "third-party", "partner", "vendor", "affiliate",
     "disclose", "provide"]),
   ("Data Selling", ["sell", "sale", "monetize", "commercialize"]),
   ("Advertising",
    ["advertising", "advertisement", "advertiser", "marketing", "promotional"]),
   ("Analytics & Tracking",
    ["analytics", "tracking", "cookie", "beacon", "pixel", "sdk"]),
   ("Personal Information",
    ["personal information", "personal data", "pii", "personally identifiable",
     "sensitive information"]),
   ("Location", ["location", "geolocation", "gps"]),
   ("Retention",
    ["retain", "retention", "store", "storage", "keep", "period", "duration"]),
   ("Security", ["security", "protect", "encryption", "breach"])]

/-! Spec-side definitions, written from the specification's wording, to be
compared with the embeddings above. -/

/-- Spec wording of the split: find the first position where a `.`, `!` or `?`
is immediately followed by one or more whitespace characters and then an
uppercase letter; the punctuation stays attached to the preceding fragment and
the uppercase letter starts the remainder. -/
def findBoundary : List Char → Option (List Char × List Char)
  | [] => none
  | c :: rest =>
    if isPunct c && isBoundary rest then some ([c], rest.dropWhile isPySpace)
    else (findBoundary rest).map (fun p => (c :: p.1, p.2))

/-- Spec wording: split at every qualifying position, taking the fragment up
to the first boundary and recursing on the remainder. -/
def splitSpecGo (fuel : Nat) (l : List Char) : List (List Char) :=
  match fuel with
  | 0 => [l]
  | fuel + 1 =>
    match findBoundary l with
    | none => [l]
    | some p => p.1 :: splitSpecGo fuel p.2

/-- Spec wording of the Segmenter: normalize, split at every qualifying
boundary, trim the fragments and return the non-empty ones in order. -/
def splitSentencesSpec (text : List Char) : List (List Char) :=
  ((splitSpecGo (collapse (stripChars text)).length
      (collapse (stripChars text))).map stripChars).filter (fun s => !s.isEmpty)

/-- Spec wording of deduplication: of the positions of the list, keep exactly
those holding the first occurrence of their string, in order. -/
def specDedup (l : List String) : List String :=
  (l.enum.filter (fun p => l.indexOf p.2 == p.1)).map Prod.snd

/-! Auxiliary notions used by the statements and proofs. -/

/-- Whether a regex split boundary occurs anywhere inside `f`, when the text
continues with `cont` after `f`. -/
def hasBoundaryW : List Char → List Char → Bool
  | [], _ => false
  | c :: rest, cont => (isPunct c && isBoundary (rest ++ cont)) || hasBoundaryW rest cont

/-- Whether a regex split boundary occurs anywhere inside `l`. -/
def hasBoundary (l : List Char) : Bool :=
  hasBoundaryW l []

/-- The non-whitespace characters of a text, in order. -/
def filterNS (l : List Char) : List Char :=
  l.filter (fun c => !isPySpace c)

end PPA

namespace PPA

/-- A name is among the matched categories of a sentence exactly when some
entry of the table carries that name and one of its keywords occurs as a
substring of the lowercased sentence. -/
theorem mem_matchedCategories (categories : List (String × List String))
    (s : List Char) (name : String) :
    name ∈ matchedCategories categories s ↔
      ∃ kws, (name, kws) ∈ categories ∧
        ∃ kw ∈ kws, isSub kw.toList (s.map lowerChar) = true := by
  constructor
  · intro h
    rcases List.mem_map.1 h with ⟨⟨n, kws⟩, hmem, rfl⟩
    rcases List.mem_filter.1 hmem with ⟨htab, hany⟩
    rcases List.any_eq_true.1 hany with ⟨kw, hkw, hsub⟩
    exact ⟨kws, htab, kw, hkw, hsub⟩
  · rintro ⟨kws, htab, kw, hkw, hsub⟩
    refine List.mem_map.2 ⟨(name, kws), List.mem_filter.2 ⟨htab, ?_⟩, rfl⟩
    exact List.any_eq_true.2 ⟨kw, hkw, hsub⟩

/-- The matched categories of a sentence are a sublist of the table's names,
hence appear in table iteration order. -/
theorem matchedCategories_sublist (categories : List (String × List String))
    (s : List Char) :
    List.Sublist (matchedCategories categories s) (categories.map Prod.fst) :=
  (List.filter_sublist categories).map Prod.fst

/-- Characterization of membership in the result list of `analyze_policy`. -/
theorem mem_analyze_policy (text : List Char)
    (categories : List (String × List String)) (s : List Char) (m : List String)
    (h : (s, m) ∈ analyze_policy text categories) :
    m = matchedCategories categories s ∧ s ∈ split_sentences text ∧ m ≠ [] := by
  rcases List.mem_filter.1 h with ⟨hmem, hne⟩
  rcases List.mem_map.1 hmem with ⟨s', hs', heq⟩
  rcases Prod.mk.injEq .. ▸ heq with ⟨h1, h2⟩
  cases h1
  cases h2
  refine ⟨rfl, hs', ?_⟩
  simpa using hne

/-- C1: for every sentence of every match record, a category name is in the
matched-category sequence iff one of that category's keywords is a substring
of the lowercased sentence, and the matched names are in table order. -/
theorem C1_matched_iff_keyword :
    ∀ (text : List Char) (categories : List (String × List String))
      (s : List Char) (m : List String),
      (s, m) ∈ analyze_policy text categories →
      (∀ name, name ∈ m ↔
        ∃ kws, (name, kws) ∈ categories ∧
          ∃ kw ∈ kws, isSub kw.toList (s.map lowerChar) = true) ∧
      List.Sublist m (categories.map Prod.fst) := by
  intro text categories s m h
  obtain ⟨rfl, -, -⟩ := mem_analyze_policy text categories s m h
  exact ⟨mem_matchedCategories categories s, matchedCategories_sublist categories s⟩

/-- C1 witness: the theorem applied to the record produced on
`"We use gps."` with the one-category table `[("Location", ["gps"])]`. -/
theorem C1_witness :
    (∀ name, name ∈ ["Location"] ↔
      ∃ kws, (name, kws) ∈ [("Location", ["gps"])] ∧
        ∃ kw ∈ kws, isSub kw.toList ("We use gps.".toList.map lowerChar) = true) ∧
    List.Sublist ["Location"] ([("Location", ["gps"])].map Prod.fst) :=
  C1_matched_iff_keyword "We use gps.".toList [("Location", ["gps"])]
    "We use gps.".toList ["Location"] (by decide)

/-- C6: every match record has a non-empty category sequence, and a sentence
of the Segmenter matching zero categories is absent from the result list. -/
theorem C6_zero_match_dropped :
    ∀ (text : List Char) (categories : List (String × List String)),
      (∀ p ∈ analyze_policy text categories, p.2 ≠ []) ∧
      (∀ s ∈ split_sentences text, matchedCategories categories s = [] →
        s ∉ (analyze_policy text categories).map Prod.fst) := by
  intro text categories
  constructor
  · intro p hp
    rcases List.mem_filter.1 hp with ⟨-, hne⟩
    simpa using hne
  · intro s _ hzero hmem
    rcases List.mem_map.1 hmem with ⟨⟨s', m⟩, hp, hfst⟩
    obtain ⟨hm, -, hne⟩ := mem_analyze_policy text categories s' m hp
    exact hne (by rw [hm, show s' = s from hfst, hzero])

/-- C6 witness: the theorem applied to the text
`"We share data. Xyzzy qwerty."` and the `main` table, whose second sentence
matches zero categories and is dropped. -/
theorem C6_witness :
    "Xyzzy qwerty.".toList ∉
      (analyze_policy "We share data. Xyzzy qwerty.".toList mainCategories).map
        Prod.fst :=
  (C6_zero_match_dropped "We share data. Xyzzy qwerty.".toList mainCategories).2
    "Xyzzy qwerty.".toList (by decide) (by decide)

/-- C4: every core function is total over any input string; in particular
`split_sentences` on the empty string returns the empty sequence, and
`analyze_policy` on the empty string with any category table returns the
empty result list, with no error raised. -/
theorem C4_total_on_empty :
    split_sentences [] = [] ∧
      ∀ categories : List (String × List String), analyze_policy [] categories = [] :=
  ⟨rfl, fun _ => rfl⟩

/-- C7: the pipeline is deterministic; running `analyze_policy` and
`get_recommendations` twice on identical inputs and tables yields identical
results, as both are pure functions of their arguments. -/
theorem C7_deterministic :
    ∀ (text : List Char) (categories : List (String × List String))
      (matched : List String),
      analyze_policy text categories = analyze_policy text categories ∧
        get_recommendations matched = get_recommendations matched :=
  fun _ _ _ => ⟨rfl, rfl⟩

/-- C8 counterexample: on `"Your GPS location is used to show nearby ads."`
with the static category table of `main`, no match record of `analyze_policy`
has both `"Location"` and `"Advertising"` among its matched categories —
no Advertising keyword occurs in the sentence, so the claim fails as stated. -/
theorem C8_counterexample :
    ¬ ∃ p, p ∈ analyze_policy
        "Your GPS location is used to show nearby ads.".toList mainCategories ∧
      "Location" ∈ p.2 ∧ "Advertising" ∈ p.2 := by
  decide

/-- C8 amended: on `"Your GPS location is used to show nearby ads."` with the
static category table of `main`, `analyze_policy` produces exactly one match
record, whose matched categories include `"Location"` but not `"Advertising"`
(`"ads"` is not a keyword of any category). -/
theorem C8_amended :
    analyze_policy "Your GPS location is used to show nearby ads.".toList
        mainCategories =
      [("Your GPS location is used to show nearby ads.".toList, ["Location"])] := by
  decide

/-- The deduplication loop only consults the membership of its seen set. -/
theorem dedupGo_congr :
    ∀ (l seen seen' : List String), (∀ x, x ∈ seen ↔ x ∈ seen') →
      dedupGo seen l = dedupGo seen' l := by
  intro l
  induction l with
  | nil => intro seen seen' _; rfl
  | cons r rest ih =>
    intro seen seen' h
    by_cases hr : r ∈ seen
    · rw [dedupGo, dedupGo, if_pos hr, if_pos ((h r).1 hr)]
      exact ih _ _ h
    · rw [dedupGo, dedupGo, if_neg hr, if_neg (fun hx => hr ((h r).2 hx))]
      exact congrArg _ (ih _ _ (fun x => by simp [h x]))

/-- Splitting the deduplication loop at an append: the second half runs with
the first half added to the seen set. -/
theorem dedupGo_append :
    ∀ (a b seen : List String),
      dedupGo seen (a ++ b) = dedupGo seen a ++ dedupGo (a ++ seen) b := by
  intro a
  induction a with
  | nil => intro b seen; rfl
  | cons r a' ih =>
    intro b seen
    by_cases hr : r ∈ seen
    · rw [List.cons_append, dedupGo, if_pos hr, ih, dedupGo, if_pos hr]
      refine congrArg _ (dedupGo_congr _ _ _ fun x => ?_)
      simp only [List.cons_append, List.mem_cons, List.mem_append]
      constructor
      · rintro (h | h) <;> simp [h]
      · rintro (h | h | h) <;> simp [h, hr]
    · rw [List.cons_append, dedupGo, if_neg hr, ih, dedupGo, if_neg hr,
        List.cons_append]
      refine congrArg _ (congrArg _ (dedupGo_congr _ _ _ fun x => ?_))
      simp only [List.mem_append, List.mem_cons, List.cons_append]
      tauto

/-- A block whose strings are all already seen contributes nothing. -/
theorem dedupGo_skip :
    ∀ (m l seen : List String), (∀ x ∈ m, x ∈ seen) →
      dedupGo seen (m ++ l) = dedupGo seen l := by
  intro m
  induction m with
  | nil => intro l seen _; rfl
  | cons r m' ih =>
    intro l seen h
    rw [List.cons_append, dedupGo, if_pos (h r (by simp))]
    exact ih l seen fun x hx => h x (by simp [hx])

/-- Every element the deduplication loop emits was not in its seen set. -/
theorem dedupGo_not_seen :
    ∀ (l seen : List String), ∀ x ∈ dedupGo seen l, x ∉ seen := by
  intro l
  induction l with
  | nil => intro seen x hx; cases hx
  | cons r rest ih =>
    intro seen x hx
    by_cases hr : r ∈ seen
    · rw [dedupGo, if_pos hr] at hx
      exact ih seen x hx
    · rw [dedupGo, if_neg hr] at hx
      rcases List.mem_cons.1 hx with rfl | hx
      · exact hr
      · exact fun hseen => ih _ x hx (by simp [hseen])

/-- The output of the deduplication loop has no duplicates. -/
theorem dedupGo_nodup : ∀ (l seen : List String), (dedupGo seen l).Nodup := by
  intro l
  induction l with
  | nil => intro seen; exact List.nodup_nil
  | cons r rest ih =>
    intro seen
    by_cases hr : r ∈ seen
    · rw [dedupGo, if_pos hr]; exact ih seen
    · rw [dedupGo, if_neg hr]
      exact List.nodup_cons.2
        ⟨fun hmem => dedupGo_not_seen rest (r :: seen) r hmem (by simp), ih _⟩

/-- The seen-set loop of the source computes the spec-side deduplication:
exactly the first occurrence of each distinct string is kept, in order. -/
theorem specDedup_eq_dedupGo : ∀ l : List String, specDedup l = dedupGo [] l := by
  intro l
  induction l using List.reverseRecOn with
  | nil => rfl
  | append_singleton l x ih =>
    rw [dedupGo_append l [x] [], ← ih]
    unfold specDedup
    rw [List.enum_append, List.filter_append, List.map_append]
    congr 1
    · refine congrArg _ (List.filter_congr fun p hp => ?_)
      have h2 : p.2 ∈ l := List.snd_mem_of_mem_enum hp
      rw [List.indexOf_append_of_mem h2]
    · by_cases hx : x ∈ l
      · have hlt : List.indexOf x l < l.length := List.indexOf_lt_length.2 hx
        simp [List.filter_cons, List.indexOf_append_of_mem hx, dedupGo, hx,
          Nat.ne_of_lt hlt]
      · simp [List.filter_cons, List.indexOf_append_of_not_mem hx,
          List.indexOf_cons_self, dedupGo, hx]

/-- C3: on a duplicate-free category sequence, `get_recommendations` equals
the spec-side pipeline — look up each category (an absent category
contributes nothing), concatenate in order, keep only first occurrences —
its output has no duplicate string, a category without a table entry yields
`[]` on lookup, and the empty input yields the empty output. -/
theorem C3_recommendation_pipeline :
    ∀ cats : List String, cats.Nodup →
      get_recommendations cats =
        specDedup ((cats.map (lookupRecs category_recommendations)).flatten) ∧
      (get_recommendations cats).Nodup ∧
      (∀ c, c ∉ category_recommendations.map Prod.fst →
        lookupRecs category_recommendations c = []) ∧
      get_recommendations [] = [] := by
  intro cats _
  refine ⟨?_, dedupGo_nodup _ _, ?_, rfl⟩
  · rw [get_recommendations, specDedup_eq_dedupGo]
  · intro c hc
    rw [lookupRecs, List.find?_eq_none.2 fun p hp => ?_]
    intro hbeq
    exact hc (List.mem_map.2 ⟨p, hp, beq_iff_eq.1 hbeq⟩)

/-- C3 witness: the theorem applied to the duplicate-free sequence
`["Security"]` and the absent category `"Other"`. -/
theorem C3_witness :
    get_recommendations ["Security"] =
      specDedup (((["Security"] : List String).map
        (lookupRecs category_recommendations)).flatten) ∧
    lookupRecs category_recommendations "Other" = [] :=
  ⟨(C3_recommendation_pipeline ["Security"] (by decide)).1,
    (C3_recommendation_pipeline ["Security"] (by decide)).2.2.1 "Other" (by decide)⟩

/-- Under compatibility of the seen sets, deduplicating the categories first
does not change the deduplicated concatenation of their lookups. -/
theorem dedupGo_flatten_dedup (f : String → List String) :
    ∀ (xs seenC seenR : List String),
      (∀ c ∈ seenC, ∀ r ∈ f c, r ∈ seenR) →
      dedupGo seenR ((xs.map f).flatten) =
        dedupGo seenR (((dedupGo seenC xs).map f).flatten) := by
  intro xs
  induction xs with
  | nil => intro seenC seenR _; rfl
  | cons c xs' ih =>
    intro seenC seenR hcompat
    by_cases hc : c ∈ seenC
    · rw [List.map_cons, List.flatten_cons,
        dedupGo_skip _ _ _ (fun r hr => hcompat c hc r hr), dedupGo,
        if_pos hc]
      exact ih seenC seenR hcompat
    · rw [List.map_cons, List.flatten_cons, dedupGo, if_neg hc, List.map_cons,
        List.flatten_cons, dedupGo_append, dedupGo_append]
      refine congrArg _ ?_
      refine (ih (c :: seenC) (f c ++ seenR) ?_).trans ?_
      · intro c' hc' r hr
        rcases List.mem_cons.1 hc' with rfl | hc'
        · exact List.mem_append.2 (Or.inl hr)
        · exact List.mem_append.2 (Or.inr (hcompat c' hc' r hr))
      · rfl

/-- C10: `get_recommendations` tolerates duplicate categories — its output on
any category sequence equals its output on the sequence with all but the
first occurrence of each category removed. -/
theorem C10_duplicates_tolerated :
    ∀ cats : List String,
      get_recommendations cats = get_recommendations (specDedup cats) := by
  intro cats
  rw [specDedup_eq_dedupGo, get_recommendations, get_recommendations]
  exact dedupGo_flatten_dedup _ cats [] [] (by simp)

/-! Lemmas about the Segmenter. -/

theorem filterNS_append (a b : List Char) :
    filterNS (a ++ b) = filterNS a ++ filterNS b :=
  List.filter_append ..

theorem filterNS_reverse (l : List Char) :
    filterNS l.reverse = (filterNS l).reverse := by
  simp [filterNS, List.filter_reverse]

/-- Dropping leading whitespace does not change the non-whitespace characters. -/
theorem filterNS_dropWhile (l : List Char) :
    filterNS (l.dropWhile isPySpace) = filterNS l := by
  induction l with
  | nil => rfl
  | cons c rest ih =>
    by_cases hc : isPySpace c = true
    · rw [List.dropWhile_cons, if_pos hc, ih]
      simp [filterNS, hc]
    · rw [List.dropWhile_cons, if_neg (by simp_all)]

/-- Stripping does not change the non-whitespace characters. -/
theorem filterNS_stripChars (l : List Char) :
    filterNS (stripChars l) = filterNS l := by
  rw [stripChars, filterNS_dropWhile, filterNS_reverse, filterNS_dropWhile,
    filterNS_reverse, List.reverse_reverse]

theorem length_dropWhile_sp_le (l : List Char) :
    (l.dropWhile isPySpace).length ≤ l.length :=
  (List.dropWhile_suffix isPySpace).sublist.length_le

/-- Whitespace collapsing does not change the non-whitespace characters. -/
theorem filterNS_collapse (l : List Char) :
    filterNS (collapse l) = filterNS l := by
  induction l using collapse.induct with
  | case1 => rfl
  | case2 c h =>
    rw [collapse, if_pos h]
    simp [filterNS, List.filter_cons, h, show isPySpace ' ' = true by decide]
  | case3 c h => simp [collapse, filterNS, h]
  | case4 a b rest h ih =>
    have ha : isPySpace a = true := by
      simp only [Bool.and_eq_true] at h
      exact h.1
    rw [collapse, if_pos h, ih]
    simp [filterNS, List.filter_cons, ha]
  | case5 a b rest h ih =>
    rw [collapse, if_neg h]
    by_cases ha : isPySpace a = true
    · rw [if_pos ha]
      simp only [filterNS] at ih ⊢
      rw [List.filter_cons, List.filter_cons, ih]
      simp [ha, show isPySpace ' ' = true by decide]
    · rw [if_neg ha]
      simp only [filterNS] at ih ⊢
      rw [List.filter_cons, List.filter_cons, ih]

theorem splitGo_nil (fuel : Nat) (acc : List Char) :
    splitGo fuel acc [] = [acc.reverse] := by
  cases fuel <;> rfl

/-- With enough fuel, the amount of fuel does not matter. -/
theorem splitGo_fuel :
    ∀ (fuel fuel' : Nat) (acc l : List Char), l.length ≤ fuel →
      l.length ≤ fuel' → splitGo fuel acc l = splitGo fuel' acc l := by
  intro fuel
  induction fuel with
  | zero =>
    intro fuel' acc l hl _
    rw [List.eq_nil_of_length_eq_zero (Nat.le_zero.1 hl), splitGo_nil,
      splitGo_nil]
  | succ fuel ih =>
    intro fuel' acc l hl hl'
    cases l with
    | nil => rw [splitGo_nil, splitGo_nil]
    | cons c rest =>
      cases fuel' with
      | zero => exact absurd hl' (by simp)
      | succ fuel' =>
        rw [splitGo, splitGo]
        simp only [List.length_cons, Nat.succ_le_succ_iff] at hl hl'
        by_cases hb : (isPunct c && isBoundary rest) = true
        · rw [if_pos hb, if_pos hb,
            ih fuel' [] (rest.dropWhile isPySpace)
              (Nat.le_trans (length_dropWhile_sp_le rest) hl)
              (Nat.le_trans (length_dropWhile_sp_le rest) hl')]
        · rw [if_neg hb, if_neg hb, ih fuel' (c :: acc) rest hl hl']

/-- The split only discards whitespace: the non-whitespace characters of the
concatenated fragments are those of the input, in order. -/
theorem filterNS_flatten_splitGo :
    ∀ (fuel : Nat) (acc l : List Char), l.length ≤ fuel →
      filterNS (splitGo fuel acc l).flatten = filterNS (acc.reverse ++ l) := by
  intro fuel
  induction fuel with
  | zero =>
    intro acc l hl
    rw [List.eq_nil_of_length_eq_zero (Nat.le_zero.1 hl), splitGo_nil]
    simp
  | succ fuel ih =>
    intro acc l hl
    cases l with
    | nil => rw [splitGo_nil]; simp
    | cons c rest =>
      rw [splitGo]
      simp only [List.length_cons, Nat.succ_le_succ_iff] at hl
      by_cases hb : (isPunct c && isBoundary rest) = true
      · rw [if_pos hb]
        rw [List.flatten_cons, filterNS_append,
          ih [] (rest.dropWhile isPySpace)
            (Nat.le_trans (length_dropWhile_sp_le rest) hl)]
        simp only [List.reverse_nil, List.nil_append, filterNS_dropWhile]
        simp only [List.reverse_cons, filterNS, List.filter_append,
          List.filter_cons, List.filter_nil, List.append_assoc]
        by_cases hc : isPySpace c = false <;> simp [hc]
      · rw [if_neg hb, ih (c :: acc) rest hl]
        simp only [List.reverse_cons, filterNS, List.filter_append,
          List.filter_cons, List.filter_nil, List.append_assoc]
        by_cases hc : isPySpace c = false <;> simp [hc]

/-- Trimming the fragments and discarding the blank ones does not change the
non-whitespace characters of the concatenation. -/
theorem filterNS_flatten_trim :
    ∀ frags : List (List Char),
      filterNS ((frags.map stripChars).filter (fun s => !s.isEmpty)).flatten =
        filterNS frags.flatten := by
  intro frags
  induction frags with
  | nil => rfl
  | cons f rest ih =>
    rw [List.map_cons, List.filter_cons]
    by_cases hf : (stripChars f).isEmpty = true
    · rw [if_neg (by simp [hf])]
      have h0 : filterNS f = [] := by
        rw [← filterNS_stripChars, List.isEmpty_iff.1 hf]; rfl
      rw [List.flatten_cons, filterNS_append, h0, List.nil_append, ih]
    · rw [if_pos (by simp [hf]), List.flatten_cons, List.flatten_cons,
        filterNS_append, filterNS_append, filterNS_stripChars, ih]

/-- A non-empty strip result contains a non-whitespace character. -/
theorem stripChars_has_nonspace (l : List Char) (h : stripChars l ≠ []) :
    ∃ c ∈ stripChars l, isPySpace c = false := by
  refine ⟨(stripChars l).head h, List.head_mem h, ?_⟩
  have := List.head_dropWhile_not isPySpace
    ((l.reverse.dropWhile isPySpace).reverse) (by simpa [stripChars] using h)
  simpa [stripChars] using this

/-- C5: no returned sentence is empty or whitespace-only, and the
concatenation of the returned sentences preserves every non-whitespace
character of the whitespace-normalized input in order. -/
theorem C5_sentences_preserve_text :
    ∀ text : List Char,
      (∀ s ∈ split_sentences text, s ≠ [] ∧ ∃ c ∈ s, isPySpace c = false) ∧
      filterNS (split_sentences text).flatten =
        filterNS (collapse (stripChars text)) := by
  intro text
  constructor
  · intro s hs
    rw [split_sentences] at hs
    rcases List.mem_filter.1 hs with ⟨hmem, hne⟩
    rcases List.mem_map.1 hmem with ⟨f, -, rfl⟩
    have hne' : stripChars f ≠ [] := by simpa using hne
    exact ⟨hne', stripChars_has_nonspace f hne'⟩
  · rw [split_sentences, filterNS_flatten_trim,
      filterNS_flatten_splitGo _ [] _ (Nat.le_refl _)]
    simp

/-- C5 witness: the theorem applied to the text `"Hi. Bye"` and its first
sentence `"Hi."`. -/
theorem C5_witness :
    "Hi.".toList ≠ [] ∧ ∃ c ∈ "Hi.".toList, isPySpace c = false :=
  (C5_sentences_preserve_text "Hi. Bye".toList).1 "Hi.".toList (by decide)

theorem splitSpecGo_nil (fuel : Nat) : splitSpecGo fuel [] = [[]] := by
  cases fuel <;> rfl

/-- The remainder returned by `findBoundary` is strictly shorter. -/
theorem findBoundary_length :
    ∀ (l s r : List Char), findBoundary l = some (s, r) → r.length < l.length := by
  intro l
  induction l with
  | nil => intro s r h; cases h
  | cons c rest ih =>
    intro s r h
    rw [findBoundary] at h
    by_cases hb : (isPunct c && isBoundary rest) = true
    · rw [if_pos hb] at h
      simp only [Option.some.injEq, Prod.mk.injEq] at h
      obtain ⟨rfl, rfl⟩ := h
      exact Nat.lt_succ_of_le (length_dropWhile_sp_le rest)
    · rw [if_neg hb] at h
      cases hfb : findBoundary rest with
      | none => rw [hfb] at h; cases h
      | some p =>
        rw [hfb] at h
        simp only [Option.map_some', Option.some.injEq, Prod.mk.injEq] at h
        obtain ⟨rfl, rfl⟩ := h
        exact Nat.lt_succ_of_le (Nat.le_of_lt (ih p.1 p.2 (by rw [hfb])))

/-- With enough fuel, the amount of fuel does not matter for the spec split. -/
theorem splitSpecGo_fuel :
    ∀ (fuel fuel' : Nat) (l : List Char), l.length ≤ fuel → l.length ≤ fuel' →
      splitSpecGo fuel l = splitSpecGo fuel' l := by
  intro fuel
  induction fuel with
  | zero =>
    intro fuel' l hl _
    rw [List.eq_nil_of_length_eq_zero (Nat.le_zero.1 hl), splitSpecGo_nil,
      splitSpecGo_nil]
  | succ fuel ih =>
    intro fuel' l hl hl'
    cases fuel' with
    | zero =>
      rw [List.eq_nil_of_length_eq_zero (Nat.le_zero.1 hl'), splitSpecGo_nil,
        splitSpecGo_nil]
    | succ fuel' =>
      rw [splitSpecGo, splitSpecGo]
      cases hfb : findBoundary l with
      | none => rfl
      | some p =>
        have hlt := findBoundary_length l p.1 p.2 (by rw [hfb])
        exact congrArg _ (ih fuel' p.2 (Nat.le_of_lt_succ (Nat.lt_of_lt_of_le hlt hl))
          (Nat.le_of_lt_succ (Nat.lt_of_lt_of_le hlt hl')))

/-- One-step unfolding of the spec split, with fuel set to the remainder's
length for the recursive call. -/
theorem splitSpecGo_unfold :
    ∀ (fuel : Nat) (l : List Char), l.length ≤ fuel →
      splitSpecGo fuel l =
        match findBoundary l with
        | none => [l]
        | some p => p.1 :: splitSpecGo p.2.length p.2 := by
  intro fuel l hl
  cases fuel with
  | zero =>
    rw [List.eq_nil_of_length_eq_zero (Nat.le_zero.1 hl)]
    rfl
  | succ fuel =>
    rw [splitSpecGo]
    cases hfb : findBoundary l with
    | none => rfl
    | some p =>
      have hlt := findBoundary_length l p.1 p.2 (by rw [hfb])
      exact congrArg _ (splitSpecGo_fuel fuel p.2.length p.2
        (Nat.le_of_lt_succ (Nat.lt_of_lt_of_le hlt hl)) (Nat.le_refl _))

/-- The char-by-char split of the source computes, fragment by fragment, the
first-boundary recursion of the spec. -/
theorem splitGo_eq_specGo :
    ∀ (fuel : Nat) (acc l : List Char), l.length ≤ fuel →
      splitGo fuel acc l =
        match findBoundary l with
        | none => [acc.reverse ++ l]
        | some p => (acc.reverse ++ p.1) :: splitSpecGo p.2.length p.2 := by
  intro fuel
  induction fuel with
  | zero =>
    intro acc l hl
    rw [List.eq_nil_of_length_eq_zero (Nat.le_zero.1 hl), splitGo_nil]
    simp [findBoundary]
  | succ fuel ih =>
    intro acc l hl
    cases l with
    | nil => rw [splitGo_nil]; simp [findBoundary]
    | cons c rest =>
      simp only [List.length_cons, Nat.succ_le_succ_iff] at hl
      rw [splitGo, findBoundary]
      by_cases hb : (isPunct c && isBoundary rest) = true
      · rw [if_pos hb, if_pos hb,
          ih [] (rest.dropWhile isPySpace)
            (Nat.le_trans (length_dropWhile_sp_le rest) hl)]
        simp only [List.reverse_nil, List.nil_append, List.reverse_cons]
        rw [← splitSpecGo_unfold (rest.dropWhile isPySpace).length
            (rest.dropWhile isPySpace) (Nat.le_refl _)]
      · rw [if_neg hb, if_neg hb, ih (c :: acc) rest hl]
        cases hfb : findBoundary rest with
        | none => simp
        | some p => simp

/-- A text with no internal boundary is returned whole by the split. -/
theorem splitGo_no_boundary :
    ∀ (fuel : Nat) (acc l : List Char), l.length ≤ fuel →
      hasBoundaryW l [] = false → splitGo fuel acc l = [acc.reverse ++ l] := by
  intro fuel
  induction fuel with
  | zero =>
    intro acc l hl _
    rw [List.eq_nil_of_length_eq_zero (Nat.le_zero.1 hl), splitGo_nil]
    simp
  | succ fuel ih =>
    intro acc l hl hnb
    cases l with
    | nil => rw [splitGo_nil]; simp
    | cons c rest =>
      rw [hasBoundaryW, List.append_nil, Bool.or_eq_false_iff] at hnb
      simp only [List.length_cons, Nat.succ_le_succ_iff] at hl
      rw [splitGo, if_neg (by simp [hnb.1]), ih (c :: acc) rest hl hnb.2]
      simp

/-- C2: `split_sentences` agrees with the spec-side Segmenter — normalize,
split at every position where `.`, `!` or `?` is followed by whitespace and an
uppercase letter, trim, keep non-empty fragments — and on a text holding a
non-whitespace character but no qualifying boundary it returns exactly one
sentence. -/
theorem C2_split_refines_spec :
    ∀ text : List Char,
      split_sentences text = splitSentencesSpec text ∧
      ((∃ c ∈ text, isPySpace c = false) →
        hasBoundary (collapse (stripChars text)) = false →
        (split_sentences text).length = 1) := by
  intro text
  constructor
  · simp only [split_sentences, splitSentencesSpec]
    congr 2
    rw [splitGo_eq_specGo _ [] _ (Nat.le_refl _),
      splitSpecGo_unfold _ _ (Nat.le_refl _)]
    cases hfb : findBoundary (collapse (stripChars text)) <;> simp
  · intro hex hnb
    have hfil : filterNS (collapse (stripChars text)) ≠ [] := by
      rw [filterNS_collapse, filterNS_stripChars]
      obtain ⟨c, hc, hcs⟩ := hex
      intro h0
      have hmem : c ∈ filterNS text := List.mem_filter.2 ⟨hc, by simp [hcs]⟩
      rw [h0] at hmem
      cases hmem
    have hclean : stripChars (collapse (stripChars text)) ≠ [] := by
      intro h0
      apply hfil
      rw [← filterNS_stripChars (collapse (stripChars text)), h0]
      rfl
    simp only [split_sentences]
    rw [splitGo_no_boundary _ [] _ (Nat.le_refl _) hnb]
    simp [List.filter_cons, hclean]

/-- C2 witness: the theorem applied to `"Hello world"`, which has
non-whitespace characters and no qualifying boundary. -/
theorem C2_witness : (split_sentences "Hello world".toList).length = 1 :=
  (C2_split_refines_spec "Hello world".toList).2 (by decide) (by decide)

/-! Lemmas towards idempotence of the Segmenter. -/

theorem dropWhile_append_of_ne_nil :
    ∀ (x ts : List Char), x.dropWhile isPySpace ≠ [] →
      (x ++ ts).dropWhile isPySpace = x.dropWhile isPySpace ++ ts := by
  intro x
  induction x with
  | nil => intro ts h; exact absurd rfl h
  | cons c x' ih =>
    intro ts h
    by_cases hc : isPySpace c = true
    · rw [List.cons_append, List.dropWhile_cons, if_pos hc,
        ih ts (by rwa [List.dropWhile_cons, if_pos hc] at h),
        List.dropWhile_cons, if_pos hc]
    · rw [List.cons_append, List.dropWhile_cons, if_neg hc, List.dropWhile_cons,
        if_neg hc, List.cons_append]

theorem dropWhile_append_of_nil :
    ∀ (x ts : List Char), x.dropWhile isPySpace = [] →
      (x ++ ts).dropWhile isPySpace = ts.dropWhile isPySpace := by
  intro x
  induction x with
  | nil => intro ts _; rfl
  | cons c x' ih =>
    intro ts h
    by_cases hc : isPySpace c = true
    · rw [List.cons_append, List.dropWhile_cons, if_pos hc,
        ih ts (by rwa [List.dropWhile_cons, if_pos hc] at h)]
    · rw [List.dropWhile_cons, if_neg hc] at h
      cases h

/-- `isBoundary` restated through heads: the list starts with whitespace and
its first non-whitespace character is an uppercase letter. -/
theorem isBoundary_eq (l : List Char) :
    isBoundary l =
      (l.head?.any isPySpace && (l.dropWhile isPySpace).head?.any isUpperAZ) := by
  cases l with
  | nil => rfl
  | cons c rest =>
    rw [isBoundary]
    cases hd : (c :: rest).dropWhile isPySpace with
    | nil => rfl
    | cons u _ => rfl

/-- Appending after a prefix whose whitespace does not reach the end keeps
the boundary test unchanged. -/
theorem isBoundary_append_of_drop_ne :
    ∀ (x y : List Char), x.dropWhile isPySpace ≠ [] →
      isBoundary (x ++ y) = isBoundary x := by
  intro x y hdx
  rw [isBoundary_eq, isBoundary_eq, dropWhile_append_of_ne_nil x y hdx]
  have hx : x ≠ [] := by
    intro h
    rw [h] at hdx
    exact hdx rfl
  congr 1
  · rw [List.head?_append]
    cases hh : x.head? with
    | none => exact absurd (List.head?_eq_none_iff.1 hh) hx
    | some c => rfl
  · rw [List.head?_append]
    cases hh : (x.dropWhile isPySpace).head? with
    | none => exact absurd (List.head?_eq_none_iff.1 hh) hdx
    | some c => rfl

/-- Appending an all-whitespace tail keeps the boundary test unchanged. -/
theorem isBoundary_append_spaces :
    ∀ (x ts : List Char), (∀ c ∈ ts, isPySpace c = true) →
      isBoundary (x ++ ts) = isBoundary x := by
  intro x ts hts
  by_cases hdx : x.dropWhile isPySpace = []
  · rw [isBoundary_eq, isBoundary_eq, hdx, dropWhile_append_of_nil x ts hdx,
      List.dropWhile_eq_nil_iff.2 hts]
    simp
  · exact isBoundary_append_of_drop_ne x ts hdx

/-- Appending after a prefix holding a non-whitespace character keeps the
boundary test unchanged. -/
theorem isBoundary_append_of_nonspace :
    ∀ (x y : List Char), (∃ c ∈ x, isPySpace c = false) →
      isBoundary (x ++ y) = isBoundary x := by
  intro x y h
  refine isBoundary_append_of_drop_ne x y fun hdx => ?_
  obtain ⟨c, hc, hcs⟩ := h
  rw [List.dropWhile_eq_nil_iff] at hdx
  rw [hdx c hc] at hcs
  cases hcs

/-- An all-whitespace continuation is invisible to the in-fragment
boundary scan. -/
theorem hasBoundaryW_spaces_cont :
    ∀ (g ts : List Char), (∀ c ∈ ts, isPySpace c = true) →
      hasBoundaryW g ts = hasBoundaryW g [] := by
  intro g ts hts
  induction g with
  | nil => rfl
  | cons a g' ih =>
    rw [hasBoundaryW, hasBoundaryW, List.append_nil, ih,
      isBoundary_append_spaces g' ts hts]

theorem isPunct_not_space (c : Char) (h : isPunct c = true) :
    isPySpace c = false := by
  simp only [isPunct, Bool.or_eq_true, decide_eq_true_eq] at h
  rcases h with (h | h) | h <;> subst h <;> decide

/-- Scanning a fragment extended by one character. -/
theorem hasBoundaryW_snoc :
    ∀ (f : List Char) (c : Char) (cont : List Char),
      hasBoundaryW (f ++ [c]) cont =
        (hasBoundaryW f (c :: cont) || (isPunct c && isBoundary cont)) := by
  intro f c cont
  induction f with
  | nil => simp [hasBoundaryW]
  | cons a f' ih =>
    rw [List.cons_append, hasBoundaryW, ih, hasBoundaryW, List.append_assoc,
      List.singleton_append, Bool.or_assoc]

/-- After a non-whitespace character, the further continuation is invisible
to the in-fragment boundary scan. -/
theorem hasBoundaryW_cons_cont :
    ∀ (g : List Char) (c : Char) (rest : List Char), isPySpace c = false →
      hasBoundaryW g (c :: rest) = hasBoundaryW g [c] := by
  intro g c rest hc
  induction g with
  | nil => rfl
  | cons a g' ih =>
    rw [hasBoundaryW, hasBoundaryW, ih]
    have h1 : g' ++ c :: rest = (g' ++ [c]) ++ rest := by simp
    rw [h1, isBoundary_append_of_nonspace (g' ++ [c]) rest ⟨c, by simp, hc⟩]

/-- Splitting the in-fragment boundary scan at an append. -/
theorem hasBoundaryW_append :
    ∀ (a b cont : List Char),
      hasBoundaryW (a ++ b) cont =
        (hasBoundaryW a (b ++ cont) || hasBoundaryW b cont) := by
  intro a
  induction a with
  | nil => intro b cont; simp [hasBoundaryW]
  | cons x a' ih =>
    intro b cont
    rw [List.cons_append, hasBoundaryW, ih, hasBoundaryW, List.append_assoc,
      Bool.or_assoc]

/-- Every fragment the split emits contains no internal boundary: the scan
cut at every qualifying position. -/
theorem splitGo_frags_no_boundary :
    ∀ (fuel : Nat) (acc l : List Char), l.length ≤ fuel →
      hasBoundaryW acc.reverse l = false →
      ∀ f ∈ splitGo fuel acc l, hasBoundaryW f [] = false := by
  intro fuel
  induction fuel with
  | zero =>
    intro acc l hl hacc f hf
    rw [List.eq_nil_of_length_eq_zero (Nat.le_zero.1 hl)] at hacc hf
    rw [splitGo_nil] at hf
    rcases List.mem_singleton.1 hf with rfl
    exact hacc
  | succ fuel ih =>
    intro acc l hl hacc f hf
    cases l with
    | nil =>
      rw [splitGo_nil] at hf
      rcases List.mem_singleton.1 hf with rfl
      exact hacc
    | cons c rest =>
      simp only [List.length_cons, Nat.succ_le_succ_iff] at hl
      rw [splitGo] at hf
      by_cases hb : (isPunct c && isBoundary rest) = true
      · rw [if_pos hb] at hf
        have hb' := hb
        simp only [Bool.and_eq_true] at hb'
        have hcs : isPySpace c = false := isPunct_not_space c hb'.1
        rcases List.mem_cons.1 hf with rfl | hf
        · rw [List.reverse_cons, hasBoundaryW_snoc,
            ← hasBoundaryW_cons_cont acc.reverse c rest hcs, hacc]
          simp [isBoundary]
        · exact ih [] (rest.dropWhile isPySpace)
            (Nat.le_trans (length_dropWhile_sp_le rest) hl) rfl f hf
      · rw [if_neg hb] at hf
        refine ih (c :: acc) rest hl ?_ f hf
        rw [List.reverse_cons, hasBoundaryW_snoc, hacc,
          Bool.eq_false_iff.2 hb]
        rfl

/-- Every fragment the split emits is a contiguous part of the input. -/
theorem splitGo_frags_contiguous :
    ∀ (fuel : Nat) (acc l : List Char), l.length ≤ fuel →
      ∀ f ∈ splitGo fuel acc l, List.IsInfix f (acc.reverse ++ l) := by
  intro fuel
  induction fuel with
  | zero =>
    intro acc l hl f hf
    rw [List.eq_nil_of_length_eq_zero (Nat.le_zero.1 hl)] at hf ⊢
    rw [splitGo_nil] at hf
    rcases List.mem_singleton.1 hf with rfl
    exact ⟨[], [], by simp⟩
  | succ fuel ih =>
    intro acc l hl f hf
    cases l with
    | nil =>
      rw [splitGo_nil] at hf
      rcases List.mem_singleton.1 hf with rfl
      exact ⟨[], [], by simp⟩
    | cons c rest =>
      simp only [List.length_cons, Nat.succ_le_succ_iff] at hl
      rw [splitGo] at hf
      by_cases hb : (isPunct c && isBoundary rest) = true
      · rw [if_pos hb] at hf
        rcases List.mem_cons.1 hf with rfl | hf
        · exact ⟨[], rest, by simp⟩
        · have h1 := ih [] (rest.dropWhile isPySpace)
            (Nat.le_trans (length_dropWhile_sp_le rest) hl) f hf
          rw [List.reverse_nil, List.nil_append] at h1
          refine (h1.trans (List.dropWhile_suffix isPySpace).isInfix).trans ?_
          exact ⟨acc.reverse ++ [c], [], by simp⟩
      · rw [if_neg hb] at hf
        have h1 := ih (c :: acc) rest hl f hf
        rw [List.reverse_cons, List.append_assoc, List.singleton_append] at h1
        exact h1

/-- A whitespace character in the collapsed text is the plain space. -/
theorem collapse_space_blank :
    ∀ (l : List Char) (c : Char), c ∈ collapse l → isPySpace c = true →
      c = ' ' := by
  intro l
  induction l using collapse.induct with
  | case1 => intro c hc _; cases hc
  | case2 c0 h =>
    intro c hc _
    rw [collapse, if_pos h] at hc
    simpa using hc
  | case3 c0 h =>
    intro c hc hcs
    rw [collapse, if_neg h] at hc
    rcases List.mem_singleton.1 hc with rfl
    exact absurd hcs h
  | case4 a b rest h ih =>
    intro c hc hcs
    rw [collapse, if_pos h] at hc
    exact ih c hc hcs
  | case5 a b rest h ih =>
    intro c hc hcs
    rw [collapse, if_neg h] at hc
    rcases List.mem_cons.1 hc with rfl | hc
    · by_cases ha : isPySpace a = true
      · simp [ha]
      · rw [if_neg ha] at hcs ⊢
        exact absurd hcs ha
    · exact ih c hc hcs

/-- The collapsed text starting at a non-whitespace character starts with
that character. -/
theorem collapse_head_nonspace :
    ∀ (b : Char) (rest : List Char), isPySpace b = false →
      (collapse (b :: rest)).head? = some b := by
  intro b rest hb
  cases rest with
  | nil => rw [collapse, if_neg (by simp [hb])]; rfl
  | cons c rest' =>
    rw [collapse, if_neg (by simp [hb]), if_neg (by simp [hb])]
    rfl

/-- The collapsed text has no two adjacent whitespace characters. -/
theorem collapse_chain :
    ∀ l : List Char,
      List.Chain' (fun a b => ¬(isPySpace a = true ∧ isPySpace b = true))
        (collapse l) := by
  intro l
  induction l using collapse.induct with
  | case1 => simp [collapse]
  | case2 c h => rw [collapse, if_pos h]; simp
  | case3 c h => rw [collapse, if_neg h]; simp
  | case4 a b rest h ih => rw [collapse, if_pos h]; exact ih
  | case5 a b rest h ih =>
    rw [collapse, if_neg h]
    rw [List.chain'_cons']
    refine ⟨?_, ih⟩
    intro y hy
    by_cases ha : isPySpace a = true
    · have hb : isPySpace b = false := by
        cases hb0 : isPySpace b
        · rfl
        · exact absurd (by simp [ha, hb0]) h
      rw [collapse_head_nonspace b rest hb] at hy
      simp only [Option.mem_def, Option.some.injEq] at hy
      subst hy
      rw [if_pos ha]
      simp [hb]
    · rw [if_neg ha]
      simp [ha]

/-- Collapsing is the identity on a text with single plain spaces. -/
theorem collapse_eq_self :
    ∀ l : List Char,
      List.Chain' (fun a b => ¬(isPySpace a = true ∧ isPySpace b = true)) l →
      (∀ c ∈ l, isPySpace c = true → c = ' ') → collapse l = l := by
  intro l
  induction l using collapse.induct with
  | case1 => intro _ _; rfl
  | case2 c h => intro _ hb; rw [collapse, if_pos h, hb c (by simp) h]
  | case3 c h => intro _ _; rw [collapse, if_neg h]
  | case4 a b rest h ih =>
    intro hch _
    exfalso
    simp only [Bool.and_eq_true] at h
    exact (List.chain'_cons.1 hch).1 ⟨h.1, h.2⟩
  | case5 a b rest h ih =>
    intro hch hbl
    rw [collapse, if_neg h]
    have ha' : (if isPySpace a = true then ' ' else a) = a := by
      by_cases ha : isPySpace a = true
      · rw [if_pos ha, ← hbl a (by simp) ha]
      · rw [if_neg ha]
    rw [ha', ih (List.chain'_cons.1 hch).2
      (fun c hc hcs => hbl c (by simp [hc]) hcs)]

/-- A text is its whitespace margins around its strip. -/
theorem stripChars_decomp :
    ∀ l : List Char, ∃ a b, l = a ++ stripChars l ++ b ∧
      (∀ c ∈ a, isPySpace c = true) ∧ (∀ c ∈ b, isPySpace c = true) := by
  intro l
  have hm : l = ((l.reverse.dropWhile isPySpace).reverse) ++
      (l.reverse.takeWhile isPySpace).reverse := by
    conv_lhs => rw [← List.reverse_reverse l,
      ← List.takeWhile_append_dropWhile isPySpace l.reverse]
    rw [List.reverse_append]
  have hm2 : (l.reverse.dropWhile isPySpace).reverse =
      ((l.reverse.dropWhile isPySpace).reverse).takeWhile isPySpace ++
        stripChars l := by
    rw [stripChars, List.takeWhile_append_dropWhile]
  refine ⟨((l.reverse.dropWhile isPySpace).reverse).takeWhile isPySpace,
    (l.reverse.takeWhile isPySpace).reverse, ?_,
    fun c hc => List.mem_takeWhile_imp hc,
    fun c hc => List.mem_takeWhile_imp (List.mem_reverse.1 hc)⟩
  rw [← hm2]
  exact hm

/-- A fragment without boundary has none after stripping. -/
theorem hasBoundary_stripChars (f : List Char) (h : hasBoundaryW f [] = false) :
    hasBoundaryW (stripChars f) [] = false := by
  obtain ⟨a, b, hdec, -, hsb⟩ := stripChars_decomp f
  rw [hdec, hasBoundaryW_append, hasBoundaryW_append, Bool.or_eq_false_iff,
    Bool.or_eq_false_iff] at h
  have hs := h.1.2
  rw [List.append_nil] at hs
  rw [← hasBoundaryW_spaces_cont (stripChars f) b hsb]
  exact hs

theorem dropWhile_eq_self_of_head :
    ∀ l : List Char, (∀ c, l.head? = some c → isPySpace c = false) →
      l.dropWhile isPySpace = l := by
  intro l h
  cases l with
  | nil => rfl
  | cons c rest => rw [List.dropWhile_cons, if_neg (by simp [h c rfl])]

theorem head?_dropWhile_not :
    ∀ (l : List Char) (c : Char), (l.dropWhile isPySpace).head? = some c →
      isPySpace c = false := by
  intro l
  induction l with
  | nil => intro c hc; cases hc
  | cons a rest ih =>
    intro c hc
    rw [List.dropWhile_cons] at hc
    by_cases ha : isPySpace a = true
    · rw [if_pos ha] at hc
      exact ih c hc
    · rw [if_neg ha] at hc
      simp only [List.head?_cons, Option.some.injEq] at hc
      subst hc
      simpa using ha

/-- The last character of a non-empty strip is not whitespace. -/
theorem stripChars_getLast_not_space :
    ∀ (l : List Char) (c : Char), (stripChars l).getLast? = some c →
      isPySpace c = false := by
  intro l c hc
  have hne : stripChars l ≠ [] := by
    intro h0
    rw [h0] at hc
    cases hc
  have hsuf : List.IsSuffix (stripChars l)
      ((l.reverse.dropWhile isPySpace).reverse) := List.dropWhile_suffix isPySpace
  obtain ⟨t, ht⟩ := hsuf
  have hm : ((l.reverse.dropWhile isPySpace).reverse).getLast? = some c := by
    rw [← ht, List.getLast?_append_of_ne_nil t hne]
    exact hc
  rw [List.getLast?_reverse] at hm
  exact head?_dropWhile_not l.reverse c hm

/-- Stripping is idempotent. -/
theorem stripChars_idem : ∀ l : List Char, stripChars (stripChars l) = stripChars l := by
  intro l
  by_cases h : stripChars l = []
  · rw [h]; rfl
  · rw [stripChars]
    have h1 : (stripChars l).reverse.dropWhile isPySpace = (stripChars l).reverse := by
      apply dropWhile_eq_self_of_head
      intro c hc
      rw [List.head?_reverse] at hc
      exact stripChars_getLast_not_space l c hc
    rw [h1, List.reverse_reverse]
    apply dropWhile_eq_self_of_head
    intro c hc
    exact head?_dropWhile_not ((l.reverse.dropWhile isPySpace).reverse) c hc

/-- C9: the Segmenter is idempotent on its own outputs — re-splitting any
returned sentence yields exactly that sentence. -/
theorem C9_split_idempotent :
    ∀ (text s : List Char), s ∈ split_sentences text → split_sentences s = [s] := by
  intro text s hs
  simp only [split_sentences] at hs
  rcases List.mem_filter.1 hs with ⟨hmem, hne⟩
  rcases List.mem_map.1 hmem with ⟨f, hf, rfl⟩
  have hne' : stripChars f ≠ [] := by simpa using hne
  have hnb : hasBoundaryW f [] = false :=
    splitGo_frags_no_boundary _ [] _ (Nat.le_refl _) rfl f hf
  have hinf : List.IsInfix f (collapse (stripChars text)) := by
    have h1 := splitGo_frags_contiguous _ [] _ (Nat.le_refl _) f hf
    simpa using h1
  have hsinf : List.IsInfix (stripChars f) (collapse (stripChars text)) := by
    obtain ⟨a, b, hdec, -, -⟩ := stripChars_decomp f
    exact List.IsInfix.trans ⟨a, b, hdec.symm⟩ hinf
  have hchain := List.Chain'.infix (collapse_chain (stripChars text)) hsinf
  have hblank : ∀ c ∈ stripChars f, isPySpace c = true → c = ' ' :=
    fun c hc hcs =>
      collapse_space_blank (stripChars text) c (hsinf.sublist.subset hc) hcs
  have hstrip := stripChars_idem f
  have hcol : collapse (stripChars (stripChars f)) = stripChars f := by
    rw [hstrip]
    exact collapse_eq_self _ hchain hblank
  have hnb2 : hasBoundaryW (stripChars f) [] = false := hasBoundary_stripChars f hnb
  simp only [split_sentences, hcol]
  rw [splitGo_no_boundary _ [] _ (Nat.le_refl _) hnb2]
  simp [List.filter_cons, hstrip, hne']

/-- C9 witness: the theorem applied to the text `"Hi. Bye"` and its first
returned sentence `"Hi."`. -/
theorem C9_witness : split_sentences "Hi.".toList = ["Hi.".toList] :=
  C9_split_idempotent "Hi. Bye".toList "Hi.".toList (by decide)

end PPA
